import Mathlib

/-!
Shallow embedding of the test_utils crate (crates/test_utils/src/lib.rs).

Text is modelled as a list of characters; offsets count characters, which
coincides with Rust byte offsets on ASCII input (all marker and tag tokens
are ASCII).  Functions that can panic in Rust return an Option or an
explicit result constructor; the value none (or the panic constructor)
models the panic.  Loops whose termination is not syntactically evident in
the source are modelled with an explicit fuel parameter; running out of
fuel is reported by a dedicated constructor, so divergence of the source
loop is visible as "every fuel amount runs out".
-/

/-- fn str::find for a string pattern: index of the first occurrence of
pat in the text, scanning left to right (Some 0 for the empty pattern,
matching Rust). -/
def findSub (pat : List Char) : List Char → Option Nat
  | [] => if pat = [] then some 0 else none
  | c :: rest =>
    if pat.isPrefixOf (c :: rest) then some 0
    else (findSub pat rest).map (· + 1)

/-- fn str::find for a single-character pattern (used for the tag scanner,
which looks for the next angle bracket). -/
def findChar (p : Char → Bool) : List Char → Option Nat
  | [] => none
  | c :: rest => if p c then some 0 else (findChar p rest).map (· + 1)

/-- pub const CURSOR_MARKER: the marker token, three characters. -/
def CURSOR_MARKER : List Char := ['<', '|', '>']

/-- pub fn try_extract_offset: find the first occurrence of the cursor
marker, remove it, and return the offset (measured in the cleaned text)
together with the cleaned text. -/
def try_extract_offset (text : List Char) : Option (Nat × List Char) :=
  (findSub CURSOR_MARKER text).map fun cursor_pos =>
    (cursor_pos, text.take cursor_pos ++ text.drop (cursor_pos + CURSOR_MARKER.length))

/-- TextUnit is a plain offset; TextRange is the pair of offsets produced
by TextRange::from_to.  The field stop models the Rust accessor end()
(end is a Lean keyword). -/
structure TextRange where
  start : Nat
  stop : Nat
deriving DecidableEq, Repr

/-- Modelled from the spec: TextRange::from_to comes from the external
text_unit crate, which is not part of this repository's sources.  Per the
spec (sections 4.1 and 9) range construction is unguarded: when the second
marker precedes the first the caller simply receives start greater than
end, so from_to is a plain pair constructor. -/
def TextRange.from_to (f t : Nat) : TextRange := ⟨f, t⟩

/-- pub fn try_extract_range: extract two marker offsets in sequence on
the progressively shrinking text, building a range from the first and the
second offset in that order. -/
def try_extract_range (text : List Char) : Option (TextRange × List Char) :=
  match try_extract_offset text with
  | none => none
  | some (start, text) =>
    match try_extract_offset text with
    | none => none
    | some (stop, text) => some (TextRange.from_to start stop, text)

/-- pub fn add_cursor: reinsert the marker token at the given offset. -/
def add_cursor (text : List Char) (offset : Nat) : List Char :=
  text.take offset ++ CURSOR_MARKER ++ text.drop offset

/-- Key order used by extract_ranges: sort_by_key |r| (r.start(), r.end()),
that is, lexicographic order on the pair of endpoints. -/
def rangeLe (r₁ r₂ : TextRange) : Prop :=
  r₁.start < r₂.start ∨ (r₁.start = r₂.start ∧ r₁.stop ≤ r₂.stop)

instance : DecidableRel rangeLe := fun r₁ r₂ => by
  unfold rangeLe; infer_instance

instance : IsTotal TextRange rangeLe := ⟨by intro a b; unfold rangeLe; omega⟩

instance : IsTrans TextRange rangeLe := ⟨by intro a b c; unfold rangeLe; omega⟩

/-- Vec::sort_by_key with key (start, end).  Rust's sort is stable, and so
is insertion sort, so on any total preorder the two agree. -/
def sortRanges (rs : List TextRange) : List TextRange :=
  List.insertionSort rangeLe rs

/-- Result of extract_ranges: a normal return, a panic (an unmatched tag
assertion), or fuel exhaustion (modelling divergence of the source loop). -/
inductive ExtractResult where
  | ok (ranges : List TextRange) (cleaned : List Char)
  | panic
  | fuelOut
deriving DecidableEq, Repr

/-- The open form of a tag: the angle-bracketed tag name. -/
def openTag (tag : List Char) : List Char := '<' :: (tag ++ ['>'])

/-- The close form of a tag: angle bracket, slash, tag name, angle bracket. -/
def closeTag (tag : List Char) : List Char := '<' :: '/' :: (tag ++ ['>'])

/-- The loop of pub fn extract_ranges, one fuel unit per iteration.  Each
iteration finds the next angle bracket, copies the text before it to the
output, and then consumes an open tag (pushing the current output length),
consumes a close tag (popping the stack and recording a range), or - when
the bracket starts neither form - consumes nothing at all, exactly as in
the source. -/
def extractRangesLoop (tag : List Char) :
    Nat → List Char → List Char → List Nat → List TextRange → ExtractResult
  | 0, _, _, _, _ => .fuelOut
  | fuel + 1, text, res, stack, ranges =>
    match findChar (fun c => c = '<') text with
    | none =>
      if stack.isEmpty then .ok (sortRanges ranges) (res ++ text) else .panic
    | some i =>
      let res1 := res ++ text.take i
      let t1 := text.drop i
      if (openTag tag).isPrefixOf t1 then
        extractRangesLoop tag fuel (t1.drop (openTag tag).length) res1
          (res1.length :: stack) ranges
      else if (closeTag tag).isPrefixOf t1 then
        match stack with
        | [] => .panic
        | f :: st =>
          extractRangesLoop tag fuel (t1.drop (closeTag tag).length) res1 st
            (ranges ++ [TextRange.from_to f res1.length])
      else
        extractRangesLoop tag fuel t1 res1 stack ranges

/-- pub fn extract_ranges, run with the given amount of fuel. -/
def extract_ranges (fuel : Nat) (text tag : List Char) : ExtractResult :=
  extractRangesLoop tag fuel text [] [] []

/-- The call extract_ranges text tag diverges: no amount of fuel completes
the loop, so the Rust source neither returns nor panics on this input. -/
def divergesOn (tag text : List Char) : Prop :=
  ∀ fuel, extract_ranges fuel text tag = ExtractResult.fuelOut

/-- A token of well-formed tag text: an open or a close tag, each carrying
the bracket-free text that follows it. -/
inductive TagTok where
  | opn
  | cls
deriving DecidableEq, Repr

/-- Render one token: the tag form followed by its trailing text. -/
def renderItem (tag : List Char) : TagTok × List Char → List Char
  | (.opn, s) => openTag tag ++ s
  | (.cls, s) => closeTag tag ++ s

/-- Render a token list. -/
def renderItems (tag : List Char) (items : List (TagTok × List Char)) : List Char :=
  (items.map (renderItem tag)).flatten

/-- The non-tag text carried by a token list, in order. -/
def joinTexts (items : List (TagTok × List Char)) : List Char :=
  (items.map Prod.snd).flatten

/-- Reference semantics of the extract_ranges loop on token lists: open
pushes the current output length, close pops it (panicking on an empty
stack) and records a range, and the trailing text of each token is copied
to the output. -/
def procItems :
    List (TagTok × List Char) → List Char → List Nat → List TextRange → ExtractResult
  | [], res, stack, ranges =>
    if stack.isEmpty then .ok (sortRanges ranges) res else .panic
  | (.opn, s) :: ts, res, stack, ranges =>
    procItems ts (res ++ s) (res.length :: stack) ranges
  | (.cls, s) :: ts, res, stack, ranges =>
    match stack with
    | [] => .panic
    | f :: st => procItems ts (res ++ s) st (ranges ++ [TextRange.from_to f res.length])

/-- Well-nestedness of a token sequence starting at a given nesting depth:
every close has a matching open and every open is eventually closed. -/
def balancedFromB : Nat → List TagTok → Bool
  | 0, [] => true
  | _ + 1, [] => false
  | d, .opn :: ts => balancedFromB (d + 1) ts
  | 0, .cls :: _ => false
  | d + 1, .cls :: ts => balancedFromB d ts

/-- str::replace pat repl, scanning left to right over non-overlapping
occurrences.  Fuel-driven so that the definition is structural; one fuel
unit per consumed character suffices because every step consumes at least
one character (the patterns used are never empty). -/
def strReplaceAux (pat repl : List Char) : Nat → List Char → List Char
  | 0, s => s
  | _ + 1, [] => []
  | fuel + 1, c :: rest =>
    if pat.isPrefixOf (c :: rest) then
      repl ++ strReplaceAux pat repl fuel ((c :: rest).drop pat.length)
    else
      c :: strReplaceAux pat repl fuel rest

/-- str::replace with exactly enough fuel. -/
def strReplace (pat repl s : List Char) : List Char :=
  strReplaceAux pat repl s.length s

/-- The backslash normalization at the top of lines_match: first replace
escaped backslashes with a forward slash, then replace single backslashes
with a forward slash. -/
def normSlash (s : List Char) : List Char :=
  strReplace ['\\'] ['/'] (strReplace ['\\', '\\'] ['/'] s)

/-- The wildcard token of the line matcher. -/
def wildTok : List Char := ['[', '.', '.', ']']

/-- str::split on a separator, fuel-driven (each step consumes at least
the separator, which is never empty where this is used). -/
def splitOnAux (sep : List Char) : Nat → List Char → List (List Char)
  | 0, s => [s]
  | fuel + 1, s =>
    match findSub sep s with
    | none => [s]
    | some i => s.take i :: splitOnAux sep fuel (s.drop (i + sep.length))

/-- str::split with exactly enough fuel. -/
def splitOn (sep s : List Char) : List (List Char) :=
  splitOnAux sep (s.length + 1) s

/-- The part loop of lines_match: each part must be found in the remaining
actual text; the first part must additionally be found at offset zero.
Returns the unconsumed suffix of the actual text, or none when a part is
missing or the first part is misplaced. -/
def lmLoop : Bool → List (List Char) → List Char → Option (List Char)
  | _, [], act => some act
  | first, part :: ps, act =>
    match findSub part act with
    | none => none
    | some j =>
      if first ∧ j ≠ 0 then none
      else lmLoop false ps (act.drop (j + part.length))

/-- pub fn lines_match: normalize path separators in both strings, split
the expected string on the wildcard token, require every part in order in
the actual string (the first at offset zero), and finally require the
leftover actual text to be empty unless the expected string ends with the
wildcard token. -/
def lines_match (expected actual : List Char) : Bool :=
  let e := normSlash expected
  let a := normSlash actual
  match lmLoop true (splitOn wildTok e) a with
  | none => false
  | some rest => rest.isEmpty || wildTok.isSuffixOf e

/-- serde_json::Value.  Object fields model the iteration sequence of the
underlying map (unique keys; serde's map iterates them in a fixed order),
which is the order the source's key and value iterators traverse. -/
inductive Json where
  | null
  | bool (b : Bool)
  | num (n : Int)
  | str (s : List Char)
  | arr (elems : List Json)
  | obj (fields : List (List Char × Json))

/-- The magic wildcard string literal of find_mismatch. -/
def wildcardVal : List Char := ['\x7b', '.', '.', '.', '\x7d']

/-- Iterator::position on the remaining actual elements: index of the
first element accepted by the predicate. -/
def posMatch (p : Json → Bool) : List Json → Option Nat
  | [] => none
  | x :: xs => if p x then some 0 else (posMatch p xs).map (· + 1)

/-- The retain loop of the array branch of find_mismatch: each expected
element is paired, in expected order, with the first not-yet-consumed
actual element it matches (that element is then removed); expected
elements with no available partner are kept.  Returns the kept expected
elements and the remaining actual elements. -/
def fmGreedy (mtch : Json → Json → Bool) : List Json → List Json → List Json × List Json
  | [], r => ([], r)
  | lv :: ls, r =>
    match posMatch (mtch lv) r with
    | some i => fmGreedy mtch ls (r.eraseIdx i)
    | none =>
      let q := fmGreedy mtch ls r
      (lv :: q.1, q.2)

/-- The object branch of find_mismatch: zip the two value sequences and
return the first mismatching pair, if any. -/
def fmZip (f : Json → Json → Option (Json × Json)) :
    List Json → List Json → Option (Json × Json)
  | [], _ => none
  | _ :: _, [] => none
  | lv :: ls, rv :: rs =>
    match f lv rv with
    | some p => some p
    | none => fmZip f ls rs

/-- pub fn find_mismatch, fuel-driven so the definition is structural.
Every recursive call of the source descends into an element of the
expected value, so any fuel exceeding the nesting depth of the expected
side yields the source's answer; the theorems below hold for every such
fuel, which shows the fuel is irrelevant on their inputs. -/
def find_mismatch : Nat → Json → Json → Option (Json × Json)
  | 0, e, a => some (e, a)
  | fuel + 1, e, a =>
    match e, a with
    | .num l, .num r => if l = r then none else some (e, a)
    | .bool l, .bool r => if l = r then none else some (e, a)
    | .str l, .str r =>
      if lines_match l r then none
      else if l = wildcardVal then none
      else some (e, a)
    | .arr l, .arr r =>
      if l.length = r.length then
        match fmGreedy (fun lv rv => (find_mismatch fuel lv rv).isNone) l r with
        | ([], _) => none
        | (x :: _, rr) => some (x, rr.headD (.arr r))
      else some (e, a)
    | .obj l, .obj r =>
      if l.length = r.length ∧ (l.map Prod.fst).all (fun k => (r.map Prod.fst).contains k) then
        fmZip (find_mismatch fuel) (l.map Prod.snd) (r.map Prod.snd)
      else some (e, a)
    | .null, .null => none
    | .str l, _ => if l = wildcardVal then none else some (e, a)
    | _, _ => some (e, a)

/-- One entry of a parsed fixture: the meta line content and the
accumulated body text. -/
structure FixtureEntry where
  meta : List Char
  text : List Char
deriving DecidableEq, Repr

/-- Split a character list on a separator character; the result always has
one more part than there are separators. -/
def splitOnChar (c : Char) : List Char → List (List Char)
  | [] => [[]]
  | x :: xs =>
    match splitOnChar c xs with
    | [] => [[x]]
    | h :: t => if x = c then [] :: h :: t else (x :: h) :: t

/-- Remove a trailing carriage return, as str::lines does. -/
def dropCR (l : List Char) : List Char :=
  if l.getLast? = some '\x0d' then l.dropLast else l

/-- str::lines: split on the newline character, with no empty final line
when the text ends in a newline. -/
def rustLines (s : List Char) : List (List Char) :=
  if s = [] then []
  else
    let parts := splitOnChar '\x0a' s
    let parts := if s.getLast? = some '\x0a' then parts.dropLast else parts
    parts.map dropCR

/-- The meta-line sentinel. -/
def metaTok : List Char := ['/', '/', '-']

/-- A raw line is a meta line when it starts, after leading whitespace,
with the sentinel. -/
def isMetaLine (l : List Char) : Bool :=
  metaTok.isPrefixOf (l.dropWhile Char.isWhitespace)

/-- The margin of a fixture: the indentation width of the first meta line,
or none when no meta line exists (the source then panics with the message
empty fixture). -/
def marginOf (ls : List (List Char)) : Option Nat :=
  match ls.find? isMetaLine with
  | none => none
  | some l => some (l.length - (l.dropWhile Char.isWhitespace).length)

/-- The margin-stripping pass of parse_fixture: a line at least as long as
the margin must have an all-whitespace margin prefix (assertion failure
otherwise) and yields the rest; a shorter line must be all whitespace
(assertion failure otherwise) and is skipped. -/
def stripLines (margin : Nat) : List (List Char) → Option (List (List Char))
  | [] => some []
  | l :: ls =>
    if margin ≤ l.length then
      if (l.take margin).all Char.isWhitespace then
        (stripLines margin ls).map (fun r => l.drop margin :: r)
      else none
    else
      if l.all Char.isWhitespace then stripLines margin ls else none

/-- str::trim_start. -/
def trimStartWs (s : List Char) : List Char := s.dropWhile Char.isWhitespace

/-- str::trim (both ends). -/
def trimWs (s : List Char) : List Char :=
  ((s.dropWhile Char.isWhitespace).reverse.dropWhile Char.isWhitespace).reverse

/-- The accumulation loop of parse_fixture over the margin-stripped lines:
a sentinel line flushes the entry in progress (if a meta line was already
seen) and opens a new entry whose meta is the trimmed remainder of the
line; any other line is appended to the body buffer followed by a newline;
the final entry is flushed at end of input. -/
def fixLoop : List (List Char) → List FixtureEntry → List Char → Option (List Char) →
    List FixtureEntry
  | [], res, buf, meta =>
    res ++ (match meta with | some m => [⟨m, buf⟩] | none => [])
  | line :: ls, res, buf, meta =>
    if metaTok.isPrefixOf line then
      let res1 := res ++ (match meta with | some m => [⟨m, buf⟩] | none => [])
      fixLoop ls res1 [] (some (trimWs (line.drop metaTok.length)))
    else
      fixLoop ls res (buf ++ line ++ ['\x0a']) meta

/-- pub fn parse_fixture: compute the margin from the first meta line
(panicking when there is none), strip the margin from every line
(panicking on malformed indentation), then fold the lines into entries. -/
def parse_fixture (fixture : List Char) : Option (List FixtureEntry) :=
  match marginOf (rustLines fixture) with
  | none => none
  | some margin =>
    match stripLines margin (rustLines fixture) with
    | none => none
    | some ls => some (fixLoop ls [] [] none)

/-- A line whose margin check fails: at least margin long with a margin
prefix that is not all whitespace, or shorter than the margin and not all
whitespace. -/
def badLine (margin : Nat) (l : List Char) : Bool :=
  if margin ≤ l.length then !(l.take margin).all Char.isWhitespace
  else !(l.all Char.isWhitespace)

/-- The text contains the cursor marker at two distinct positions. -/
def hasTwoMarkersB (t : List Char) : Bool :=
  (List.range t.length).any fun i =>
    (List.range t.length).any fun j =>
      decide (i < j) && CURSOR_MARKER.isPrefixOf (t.drop i)
        && CURSOR_MARKER.isPrefixOf (t.drop j)

/-! ### Helper lemmas about substring search -/

theorem isPrefixOf_app_self (p t : List Char) : p.isPrefixOf (p ++ t) = true := by
  induction p with
  | nil => simp [List.isPrefixOf]
  | cons c p ih => simp [List.isPrefixOf, ih]

theorem isPrefixOf_iff_ex (p : List Char) : ∀ l, p.isPrefixOf l = true ↔ ∃ t, l = p ++ t := by
  induction p with
  | nil => intro l; simp [List.isPrefixOf]
  | cons c p ih =>
    intro l
    cases l with
    | nil => simp [List.isPrefixOf]
    | cons d l =>
      simp only [List.isPrefixOf, Bool.and_eq_true, beq_iff_eq, List.cons_append,
        List.cons.injEq]
      rw [ih l]
      constructor
      · rintro ⟨hcd, t, ht⟩; exact ⟨t, hcd.symm, ht⟩
      · rintro ⟨t, hdc, ht⟩; exact ⟨hdc.symm, t, ht⟩

theorem findSub_eq_some_iff (pat : List Char) :
    ∀ (t : List Char) (i : Nat),
      findSub pat t = some i ↔
        (pat.isPrefixOf (t.drop i) = true ∧
          ∀ j, j < i → pat.isPrefixOf (t.drop j) = false) := by
  intro t
  induction t with
  | nil =>
    intro i
    by_cases hp : pat = []
    · subst hp
      simp only [findSub, if_pos rfl, List.drop_nil]
      constructor
      · rintro h
        injection h with h
        subst h
        exact ⟨by simp [List.isPrefixOf], fun j hj => absurd hj (by omega)⟩
      · rintro ⟨_, hall⟩
        rcases Nat.eq_zero_or_pos i with h0 | hpos
        · simp [h0]
        · have := hall 0 hpos
          simp [List.isPrefixOf] at this
    · obtain ⟨c, p, rfl⟩ : ∃ c p, pat = c :: p := by
        cases pat with
        | nil => exact absurd rfl hp
        | cons c p => exact ⟨c, p, rfl⟩
      simp [findSub, List.isPrefixOf]
  | cons c rest ih =>
    intro i
    by_cases hp : pat.isPrefixOf (c :: rest) = true
    · simp only [findSub, if_pos hp]
      constructor
      · rintro h
        injection h with h
        subst h
        exact ⟨by simpa using hp, fun j hj => absurd hj (by omega)⟩
      · rintro ⟨_, hall⟩
        rcases Nat.eq_zero_or_pos i with h0 | hpos
        · simp [h0]
        · have := hall 0 hpos
          simp only [List.drop_zero] at this
          rw [hp] at this
          cases this
    · have hp' : pat.isPrefixOf (c :: rest) = false := by
        cases h : pat.isPrefixOf (c :: rest) with
        | false => rfl
        | true => exact absurd h hp
      rw [findSub, if_neg hp]
      cases i with
      | zero =>
        constructor
        · intro h
          exfalso
          rcases Option.map_eq_some'.mp h with ⟨a, _, ha⟩
          simp at ha
        · rintro ⟨hocc, _⟩
          exfalso
          rw [List.drop_zero, hp'] at hocc
          cases hocc
      | succ k =>
        constructor
        · intro h
          rcases Option.map_eq_some'.mp h with ⟨a, hfind, ha⟩
          have hak : a = k := by simpa using ha
          rw [hak] at hfind
          rcases (ih k).mp hfind with ⟨hocc, hall⟩
          refine ⟨by simpa using hocc, ?_⟩
          intro j hj
          cases j with
          | zero => simpa using hp'
          | succ j' => simpa using hall j' (by omega)
        · rintro ⟨hocc, hall⟩
          have hfind : findSub pat rest = some k := by
            rw [ih k]
            refine ⟨by simpa using hocc, ?_⟩
            intro j' hj'
            simpa using hall (j' + 1) (by omega)
          rw [hfind]
          rfl

theorem findSub_eq_none_iff (pat : List Char) :
    ∀ t, findSub pat t = none ↔ ∀ j, pat.isPrefixOf (t.drop j) = false := by
  intro t
  induction t with
  | nil =>
    by_cases hp : pat = []
    · subst hp
      simp [findSub, List.isPrefixOf]
    · obtain ⟨c, p, rfl⟩ : ∃ c p, pat = c :: p := by
        cases pat with
        | nil => exact absurd rfl hp
        | cons c p => exact ⟨c, p, rfl⟩
      simp [findSub, List.isPrefixOf]
  | cons c rest ih =>
    by_cases hp : pat.isPrefixOf (c :: rest) = true
    · simp only [findSub, if_pos hp]
      constructor
      · intro h; cases h
      · intro hall
        have := hall 0
        simp only [List.drop_zero] at this
        rw [hp] at this
        cases this
    · have hp' : pat.isPrefixOf (c :: rest) = false := by
        cases h : pat.isPrefixOf (c :: rest) with
        | false => rfl
        | true => exact absurd h hp
      rw [findSub, if_neg hp]
      rw [Option.map_eq_none']
      rw [ih]
      constructor
      · intro hall j
        cases j with
        | zero => simpa using hp'
        | succ j' => simpa using hall j'
      · intro hall j'
        simpa using hall (j' + 1)

theorem take_app_of_le {A B : List Char} {j : Nat} (h : j ≤ A.length) :
    (A ++ B).take j = A.take j := by
  rw [List.take_append_eq_append_take, Nat.sub_eq_zero_of_le h, List.take_zero,
    List.append_nil]

theorem drop_app_of_le {A B : List Char} {j : Nat} (h : j ≤ A.length) :
    (A ++ B).drop j = A.drop j ++ B := by
  rw [List.drop_append_eq_append_drop, Nat.sub_eq_zero_of_le h, List.drop_zero]

theorem length_take_of_le {l : List Char} {n : Nat} (h : n ≤ l.length) :
    (l.take n).length = n := by
  simp [List.length_take, Nat.min_eq_left h]

/-- A pattern that occurs at the start of a list and fits inside its first
block occurs there whatever follows the block. -/
theorem isPrefixOf_app_of_le_length {p A X Y : List Char}
    (h : p.isPrefixOf (A ++ X) = true) (hl : p.length ≤ A.length) :
    p.isPrefixOf (A ++ Y) = true := by
  obtain ⟨t, ht⟩ := (isPrefixOf_iff_ex p (A ++ X)).mp h
  have hpA : A.take p.length = p := by
    have h1 : (A ++ X).take p.length = A.take p.length := take_app_of_le hl
    have h2 : (p ++ t).take p.length = p := by
      rw [take_app_of_le (le_refl _), List.take_length]
    rw [ht] at h1
    rw [h2] at h1
    exact h1.symm
  refine (isPrefixOf_iff_ex p (A ++ Y)).mpr ⟨A.drop p.length ++ Y, ?_⟩
  conv_lhs => rw [← List.take_append_drop p.length A]
  rw [hpA, List.append_assoc]

/-! ### C2: round trip of add_cursor and try_extract_offset -/

theorem marker_absent_before_cursor (T : List Char) (o : Nat)
    (hno : ∀ j, CURSOR_MARKER.isPrefixOf (T.drop j) = false)
    (ho : o ≤ T.length) :
    ∀ j, j < o → CURSOR_MARKER.isPrefixOf ((add_cursor T o).drop j) = false := by
  intro j hj
  have hlen : (T.take o).length = o := length_take_of_le ho
  cases hcon : CURSOR_MARKER.isPrefixOf ((add_cursor T o).drop j) with
  | false => rfl
  | true =>
    exfalso
    have hdrop : (add_cursor T o).drop j =
        (T.take o).drop j ++ (CURSOR_MARKER ++ T.drop o) := by
      unfold add_cursor
      rw [List.append_assoc]
      exact drop_app_of_le (by omega)
    rw [hdrop] at hcon
    have hlenA : ((T.take o).drop j).length = o - j := by
      simp [List.length_drop, hlen]
    have hTdrop : T.drop j = (T.take o).drop j ++ T.drop o := by
      conv_lhs => rw [← List.take_append_drop o T]
      exact drop_app_of_le (by omega)
    rcases Nat.lt_or_ge (o - j) 3 with hd | hd
    · -- the occurrence starts one or two characters before the inserted
      -- marker, which clashes with the marker's own characters
      rcases (by omega : o - j = 1 ∨ o - j = 2) with h1 | h2
      · obtain ⟨a, hA⟩ := List.length_eq_one.mp (h1 ▸ hlenA)
        rw [hA] at hcon
        simp [CURSOR_MARKER, List.isPrefixOf] at hcon
      · obtain ⟨a, b, hA⟩ := List.length_eq_two.mp (h2 ▸ hlenA)
        rw [hA] at hcon
        simp [CURSOR_MARKER, List.isPrefixOf] at hcon
    · -- the occurrence fits before the inserted marker, hence occurs in
      -- the original text, contradicting its absence
      have : CURSOR_MARKER.isPrefixOf ((T.take o).drop j ++ T.drop o) = true := by
        refine isPrefixOf_app_of_le_length hcon ?_
        rw [hlenA]
        simp [CURSOR_MARKER]
        omega
      rw [← hTdrop] at this
      rw [hno j] at this
      cases this

theorem findSub_add_cursor (T : List Char) (o : Nat)
    (hno : findSub CURSOR_MARKER T = none) (ho : o ≤ T.length) :
    findSub CURSOR_MARKER (add_cursor T o) = some o := by
  have hno' := (findSub_eq_none_iff _ _).mp hno
  rw [findSub_eq_some_iff]
  refine ⟨?_, marker_absent_before_cursor T o hno' ho⟩
  have hdrop : (add_cursor T o).drop o = CURSOR_MARKER ++ T.drop o := by
    unfold add_cursor
    rw [List.append_assoc]
    rw [drop_app_of_le (by rw [length_take_of_le ho])]
    rw [List.drop_of_length_le (by rw [length_take_of_le ho])]
    rfl
  rw [hdrop]
  exact isPrefixOf_app_self _ _

/-- C2: round trip of cursor insertion and extraction.  For every text
without the marker token and every offset within bounds, inserting the
marker with add_cursor and extracting it again with try_extract_offset
returns exactly the inserted offset and the original text. -/
theorem try_extract_offset_add_cursor_round_trip (T : List Char) (o : Nat)
    (hno : findSub CURSOR_MARKER T = none) (ho : o ≤ T.length) :
    try_extract_offset (add_cursor T o) = some (o, T) := by
  unfold try_extract_offset
  rw [findSub_add_cursor T o hno ho]
  simp only [Option.map_some']
  have hmarker : CURSOR_MARKER.length = 3 := rfl
  have htake : (add_cursor T o).take o = T.take o := by
    unfold add_cursor
    rw [List.append_assoc]
    rw [take_app_of_le (by rw [length_take_of_le ho])]
    rw [List.take_of_length_le (by rw [length_take_of_le ho])]
  have hdrop : (add_cursor T o).drop (o + CURSOR_MARKER.length) = T.drop o := by
    unfold add_cursor
    have hlen : (T.take o ++ CURSOR_MARKER).length = o + 3 := by
      simp [List.length_append, length_take_of_le ho, CURSOR_MARKER]
    rw [drop_app_of_le (by rw [hlen, hmarker])]
    rw [List.drop_of_length_le (by rw [hlen, hmarker])]
    rfl
  rw [htake, hdrop, List.take_append_drop]

/-- Witness for C2 at a concrete input. -/
theorem try_extract_offset_add_cursor_round_trip_w :
    findSub CURSOR_MARKER "ab".toList = none ∧ 1 ≤ "ab".toList.length ∧
      try_extract_offset (add_cursor "ab".toList 1) = some (1, "ab".toList) :=
  ⟨by decide, by decide,
    try_extract_offset_add_cursor_round_trip "ab".toList 1 (by decide) (by decide)⟩

/-! ### C3: reversed markers are not reordered -/

/-- C3: try_extract_range extracts two marker offsets in sequence on the
progressively shrinking text and does not reorder them.  Whenever the
second extracted offset is smaller than the first, the call still
succeeds, and the caller receives a range whose end is smaller than its
start, together with the fully cleaned text. -/
theorem try_extract_range_no_reorder (t : List Char) (s e : Nat) (t1 t2 : List Char)
    (h1 : try_extract_offset t = some (s, t1))
    (h2 : try_extract_offset t1 = some (e, t2))
    (h3 : e < s) :
    try_extract_range t = some (TextRange.from_to s e, t2) ∧
      (TextRange.from_to s e).stop < (TextRange.from_to s e).start := by
  constructor
  · simp [try_extract_range, h1, h2]
  · simpa [TextRange.from_to] using h3

/-- Witness for C3 at a concrete input whose second marker precedes the
first: the text built of an interrupted marker wrapped around a full one. -/
theorem try_extract_range_no_reorder_w :
    try_extract_offset "<|<|>>".toList = some (2, "<|>".toList) ∧
      try_extract_offset "<|>".toList = some (0, ([] : List Char)) ∧
      (0 : Nat) < 2 ∧
      (try_extract_range "<|<|>>".toList = some (TextRange.from_to 2 0, ([] : List Char)) ∧
        (TextRange.from_to 2 0).stop < (TextRange.from_to 2 0).start) :=
  ⟨by decide, by decide, by decide,
    try_extract_range_no_reorder "<|<|>>".toList 2 0 "<|>".toList [] (by decide) (by decide)
      (by decide)⟩

/-! ### C10: surplus markers are tolerated -/

/-- Two occurrences of the marker cannot overlap: their starts are at
least a full marker apart. -/
theorem marker_no_overlap (t : List Char) (a b : Nat)
    (ha : CURSOR_MARKER.isPrefixOf (t.drop a) = true)
    (hb : CURSOR_MARKER.isPrefixOf (t.drop b) = true)
    (hab : a < b) : a + 3 ≤ b := by
  by_contra hcon
  obtain ⟨t₁, ht₁⟩ := (isPrefixOf_iff_ex _ _).mp ha
  rcases (by omega : b = a + 1 ∨ b = a + 2) with h1 | h2
  · rw [h1, ← List.drop_drop, ht₁] at hb
    simp [CURSOR_MARKER, List.isPrefixOf] at hb
  · rw [h2, ← List.drop_drop, ht₁] at hb
    simp [CURSOR_MARKER, List.isPrefixOf] at hb

/-- C10: surplus markers are tolerated, not rejected.  Whenever the text
contains the marker at two distinct positions, try_extract_range succeeds;
and on concrete three-marker and two-marker inputs only the first two
(respectively the first) occurrences are removed, every later occurrence
remaining verbatim in the cleaned text. -/
theorem surplus_markers_tolerated (t : List Char) (h : hasTwoMarkersB t = true) :
    (try_extract_range t).isSome = true ∧
      try_extract_range "a<|>b<|>c<|>d".toList =
        some (TextRange.from_to 1 2, "abc<|>d".toList) ∧
      try_extract_offset "a<|>b<|>c".toList = some (1, "ab<|>c".toList) := by
  refine ⟨?_, by decide, by decide⟩
  -- unpack the two occurrences
  rw [hasTwoMarkersB, List.any_eq_true] at h
  obtain ⟨i, hi, h⟩ := h
  rw [List.any_eq_true] at h
  obtain ⟨j, hj, h⟩ := h
  rw [List.mem_range] at hi hj
  simp only [Bool.and_eq_true, decide_eq_true_eq] at h
  obtain ⟨⟨hij, hocci⟩, hoccj⟩ := h
  have hsep : i + 3 ≤ j := marker_no_overlap t i j hocci hoccj hij
  -- the first extraction succeeds
  have hfirst : ∃ p, findSub CURSOR_MARKER t = some p := by
    cases hfs : findSub CURSOR_MARKER t with
    | none =>
      have := (findSub_eq_none_iff _ _).mp hfs i
      rw [hocci] at this
      cases this
    | some p => exact ⟨p, rfl⟩
  obtain ⟨p, hp⟩ := hfirst
  obtain ⟨hoccp, hmin⟩ := (findSub_eq_some_iff _ _ _).mp hp
  have hpi : p ≤ i := by
    by_contra hgt
    have := hmin i (by omega)
    rw [hocci] at this
    cases this
  -- the second extraction succeeds on the stripped text
  have hplen : p + 3 ≤ t.length := by
    obtain ⟨t₁, ht₁⟩ := (isPrefixOf_iff_ex _ _).mp hoccp
    have := congrArg List.length ht₁
    simp [List.length_drop, CURSOR_MARKER] at this
    omega
  have hlenp : (t.take p).length = p := length_take_of_le (by omega)
  have hocc' :
      CURSOR_MARKER.isPrefixOf ((t.take p ++ t.drop (p + 3)).drop (j - 3)) = true := by
    rw [List.drop_append_eq_append_drop]
    rw [List.drop_eq_nil_of_le (by omega)]
    rw [List.nil_append, hlenp, List.drop_drop]
    rw [(by omega : p + 3 + (j - 3 - p) = j)]
    exact hoccj
  have hsecond : ∃ q, findSub CURSOR_MARKER (t.take p ++ t.drop (p + 3)) = some q := by
    cases hfs : findSub CURSOR_MARKER (t.take p ++ t.drop (p + 3)) with
    | none =>
      have := (findSub_eq_none_iff _ _).mp hfs (j - 3)
      rw [hocc'] at this
      cases this
    | some q => exact ⟨q, rfl⟩
  obtain ⟨q, hq⟩ := hsecond
  have h1 : try_extract_offset t = some (p, t.take p ++ t.drop (p + 3)) := by
    unfold try_extract_offset
    rw [hp]
    rfl
  have h2 : (try_extract_offset (t.take p ++ t.drop (p + 3))).isSome = true := by
    unfold try_extract_offset
    rw [hq]
    rfl
  cases h3 : try_extract_offset (t.take p ++ t.drop (p + 3)) with
  | none =>
    rw [h3] at h2
    cases h2
  | some pr =>
    obtain ⟨e2, t2⟩ := pr
    simp [try_extract_range, h1, h3]

/-- Witness for C10 at a concrete two-marker input. -/
theorem surplus_markers_tolerated_w :
    hasTwoMarkersB "x<|>y<|>z".toList = true ∧
      ((try_extract_range "x<|>y<|>z".toList).isSome = true ∧
        try_extract_range "a<|>b<|>c<|>d".toList =
          some (TextRange.from_to 1 2, "abc<|>d".toList) ∧
        try_extract_offset "a<|>b<|>c".toList = some (1, "ab<|>c".toList)) :=
  ⟨by decide, surplus_markers_tolerated "x<|>y<|>z".toList (by decide)⟩

/-! ### Helper lemmas for the tagged-range extractor -/

theorem isPrefixOf_nil_of_ne_nil {p : List Char} (h : p ≠ []) :
    p.isPrefixOf ([] : List Char) = false := by
  cases p with
  | nil => exact absurd rfl h
  | cons c p => rfl

theorem findChar_none {s : List Char} (hs : '<' ∉ s) :
    findChar (fun c => c = '<') s = none := by
  induction s with
  | nil => rfl
  | cons c cs ih =>
    have hc : ¬(c = '<') := fun h => hs (by simp [h])
    have hcs : '<' ∉ cs := fun h => hs (List.mem_cons_of_mem _ h)
    simp [findChar, hc, ih hcs]

theorem findChar_app {s : List Char} (r : List Char) (hs : '<' ∉ s) :
    findChar (fun c => c = '<') (s ++ '<' :: r) = some s.length := by
  induction s with
  | nil => simp [findChar]
  | cons c cs ih =>
    have hc : ¬(c = '<') := fun h => hs (by simp [h])
    have hcs : '<' ∉ cs := fun h => hs (List.mem_cons_of_mem _ h)
    simp [findChar, hc, ih hcs]

theorem openTag_not_of_close (tag : List Char) (htag : '/' ∉ tag) (r : List Char) :
    (openTag tag).isPrefixOf (closeTag tag ++ r) = false := by
  cases tag with
  | nil => simp [openTag, closeTag, List.isPrefixOf]
  | cons c tg =>
    have hc : ¬(c = '/') := fun h => htag (by simp [h])
    simp [openTag, closeTag, List.isPrefixOf, hc]

/-- One loop iteration consuming an open tag. -/
theorem loop_step_opn (tag : List Char) (s s2 rest res : List Char)
    (stack : List Nat) (ranges : List TextRange) (n : Nat) (hs : '<' ∉ s) :
    extractRangesLoop tag (n + 1) (s ++ ((openTag tag ++ s2) ++ rest)) res stack ranges =
      extractRangesLoop tag n (s2 ++ rest) (res ++ s)
        ((res ++ s).length :: stack) ranges := by
  have hform : s ++ ((openTag tag ++ s2) ++ rest) =
      s ++ '<' :: ((tag ++ ['>']) ++ (s2 ++ rest)) := by
    simp [openTag, List.append_assoc]
  rw [hform, extractRangesLoop, findChar_app _ hs]
  have htake : (s ++ '<' :: ((tag ++ ['>']) ++ (s2 ++ rest))).take s.length = s := by
    rw [take_app_of_le (le_refl _), List.take_length]
  have hdrop : (s ++ '<' :: ((tag ++ ['>']) ++ (s2 ++ rest))).drop s.length =
      openTag tag ++ (s2 ++ rest) := by
    rw [drop_app_of_le (le_refl _), List.drop_length, List.nil_append]
    simp [openTag]
  simp only [htake, hdrop]
  rw [if_pos (isPrefixOf_app_self (openTag tag) (s2 ++ rest))]
  rw [List.drop_left]

/-- One loop iteration consuming a close tag. -/
theorem loop_step_cls (tag : List Char) (htag : '/' ∉ tag) (s s2 rest res : List Char)
    (stack : List Nat) (ranges : List TextRange) (n : Nat) (hs : '<' ∉ s) :
    extractRangesLoop tag (n + 1) (s ++ ((closeTag tag ++ s2) ++ rest)) res stack ranges =
      match stack with
      | [] => ExtractResult.panic
      | f :: st =>
        extractRangesLoop tag n (s2 ++ rest) (res ++ s) st
          (ranges ++ [TextRange.from_to f (res ++ s).length]) := by
  have hform : s ++ ((closeTag tag ++ s2) ++ rest) =
      s ++ '<' :: (('/' :: (tag ++ ['>'])) ++ (s2 ++ rest)) := by
    simp [closeTag, List.append_assoc]
  rw [hform, extractRangesLoop, findChar_app _ hs]
  have htake : (s ++ '<' :: (('/' :: (tag ++ ['>'])) ++ (s2 ++ rest))).take s.length = s := by
    rw [take_app_of_le (le_refl _), List.take_length]
  have hdrop : (s ++ '<' :: (('/' :: (tag ++ ['>'])) ++ (s2 ++ rest))).drop s.length =
      closeTag tag ++ (s2 ++ rest) := by
    rw [drop_app_of_le (le_refl _), List.drop_length, List.nil_append]
    simp [closeTag]
  simp only [htake, hdrop]
  have hneg : ¬((openTag tag).isPrefixOf (closeTag tag ++ (s2 ++ rest)) = true) := by
    rw [openTag_not_of_close tag htag]
    simp
  rw [if_neg hneg]
  rw [if_pos (isPrefixOf_app_self (closeTag tag) (s2 ++ rest))]
  rw [List.drop_left]

/-- The extract_ranges loop never leaves the stray-bracket state: on a
text holding a single angle bracket every fuel amount is exhausted. -/
theorem loop_stuck_bare_lt (tag : List Char) :
    ∀ (fuel : Nat) (res : List Char) (stack : List Nat) (ranges : List TextRange),
      extractRangesLoop tag fuel ['<'] res stack ranges = ExtractResult.fuelOut := by
  intro fuel
  induction fuel with
  | zero => intro res stack ranges; rfl
  | succ n ih =>
    intro res stack ranges
    rw [extractRangesLoop]
    have hfind : findChar (fun c => c = '<') ['<'] = some 0 := rfl
    rw [hfind]
    have hop : (openTag tag).isPrefixOf ['<'] = false := by
      simp only [openTag, List.isPrefixOf]
      simp [isPrefixOf_nil_of_ne_nil (by simp : tag ++ ['>'] ≠ ([] : List Char))]
    have hcl : (closeTag tag).isPrefixOf ['<'] = false := by
      simp [closeTag, List.isPrefixOf]
    simp only [List.take_zero, List.drop_zero, List.append_nil]
    rw [if_neg (by rw [hop]; simp : ¬((openTag tag).isPrefixOf ['<'] = true))]
    rw [if_neg (by rw [hcl]; simp : ¬((closeTag tag).isPrefixOf ['<'] = true))]
    exact ih res stack ranges

/-- The extract_ranges loop simulates the token-level reference semantics
on text whose every angle bracket begins a tag form. -/
theorem extractRangesLoop_sim (tag : List Char) (htag : '/' ∉ tag) :
    ∀ (items : List (TagTok × List Char)) (fuel : Nat) (s res : List Char)
      (stack : List Nat) (ranges : List TextRange),
      '<' ∉ s → (∀ p ∈ items, '<' ∉ p.2) → items.length + 1 ≤ fuel →
      extractRangesLoop tag fuel (s ++ renderItems tag items) res stack ranges =
        procItems items (res ++ s) stack ranges := by
  intro items
  induction items with
  | nil =>
    intro fuel s res stack ranges hs _ hfuel
    obtain ⟨n, rfl⟩ : ∃ n, fuel = n + 1 := ⟨fuel - 1, by omega⟩
    rw [show renderItems tag [] = [] from rfl, List.append_nil]
    rw [extractRangesLoop, findChar_none hs]
    rfl
  | cons item ts ih =>
    intro fuel s res stack ranges hs hitems hfuel
    obtain ⟨n, rfl⟩ : ∃ n, fuel = n + 1 := ⟨fuel - 1, by omega⟩
    obtain ⟨k, s2⟩ := item
    have hs2 : '<' ∉ s2 := hitems (k, s2) (List.mem_cons_self _ _)
    have hts : ∀ p ∈ ts, '<' ∉ p.2 := fun p hp => hitems p (List.mem_cons_of_mem _ hp)
    have hrender : renderItems tag ((k, s2) :: ts) =
        renderItem tag (k, s2) ++ renderItems tag ts := by
      simp [renderItems]
    cases k with
    | opn =>
      rw [hrender, show renderItem tag (TagTok.opn, s2) = openTag tag ++ s2 from rfl]
      rw [loop_step_opn tag s s2 (renderItems tag ts) res stack ranges n hs]
      rw [ih n s2 (res ++ s) ((res ++ s).length :: stack) ranges hs2 hts (by
        simp only [List.length_cons] at hfuel
        omega)]
      rfl
    | cls =>
      rw [hrender, show renderItem tag (TagTok.cls, s2) = closeTag tag ++ s2 from rfl]
      rw [loop_step_cls tag htag s s2 (renderItems tag ts) res stack ranges n hs]
      cases stack with
      | nil => rfl
      | cons f st =>
        show extractRangesLoop tag n (s2 ++ renderItems tag ts) (res ++ s) st
            (ranges ++ [TextRange.from_to f (res ++ s).length]) =
          procItems ts ((res ++ s) ++ s2) st
            (ranges ++ [TextRange.from_to f (res ++ s).length])
        exact ih n s2 (res ++ s) st (ranges ++ [TextRange.from_to f (res ++ s).length])
          hs2 hts (by
            simp only [List.length_cons] at hfuel
            omega)

/-- On a balanced token sequence the reference semantics returns a sorted
range list and the concatenation of the non-tag text. -/
theorem procItems_balanced :
    ∀ (items : List (TagTok × List Char)) (res : List Char) (stack : List Nat)
      (ranges : List TextRange),
      balancedFromB stack.length (items.map Prod.fst) = true →
      ∃ rs, procItems items res stack ranges =
        ExtractResult.ok (sortRanges rs) (res ++ joinTexts items) := by
  intro items
  induction items with
  | nil =>
    intro res stack ranges hbal
    have hst : stack = [] := by
      cases stack with
      | nil => rfl
      | cons f st => simp [balancedFromB] at hbal
    subst hst
    exact ⟨ranges, by simp [procItems, joinTexts]⟩
  | cons item ts ih =>
    obtain ⟨k, s2⟩ := item
    cases k with
    | opn =>
      intro res stack ranges hbal
      have hbal' : balancedFromB (res.length :: stack).length (ts.map Prod.fst) = true := by
        simpa [balancedFromB] using hbal
      obtain ⟨rs, hrs⟩ := ih (res ++ s2) (res.length :: stack) ranges hbal'
      refine ⟨rs, ?_⟩
      show procItems ts (res ++ s2) (res.length :: stack) ranges = _
      rw [hrs]
      simp [joinTexts, List.append_assoc]
    | cls =>
      intro res stack ranges hbal
      cases stack with
      | nil =>
        exfalso
        simp [balancedFromB] at hbal
      | cons f st =>
        have hbal' : balancedFromB st.length (ts.map Prod.fst) = true := by
          simpa [balancedFromB] using hbal
        obtain ⟨rs, hrs⟩ :=
          ih (res ++ s2) st (ranges ++ [TextRange.from_to f res.length]) hbal'
        refine ⟨rs, ?_⟩
        show procItems ts (res ++ s2) st (ranges ++ [TextRange.from_to f res.length]) = _
        rw [hrs]
        simp [joinTexts, List.append_assoc]

/-- On an unbalanced token sequence the reference semantics panics. -/
theorem procItems_unbalanced :
    ∀ (items : List (TagTok × List Char)) (res : List Char) (stack : List Nat)
      (ranges : List TextRange),
      balancedFromB stack.length (items.map Prod.fst) = false →
      procItems items res stack ranges = ExtractResult.panic := by
  intro items
  induction items with
  | nil =>
    intro res stack ranges hbal
    cases stack with
    | nil => simp [balancedFromB] at hbal
    | cons f st => rfl
  | cons item ts ih =>
    obtain ⟨k, s2⟩ := item
    cases k with
    | opn =>
      intro res stack ranges hbal
      have hbal' : balancedFromB (res.length :: stack).length (ts.map Prod.fst) = false := by
        simpa [balancedFromB] using hbal
      exact ih (res ++ s2) (res.length :: stack) ranges hbal'
    | cls =>
      intro res stack ranges hbal
      cases stack with
      | nil => rfl
      | cons f st =>
        have hbal' : balancedFromB st.length (ts.map Prod.fst) = false := by
          simpa [balancedFromB] using hbal
        exact ih (res ++ s2) st (ranges ++ [TextRange.from_to f res.length]) hbal'

/-- C1: the claim says extract_ranges terminates for all inputs, copying
angle brackets that begin neither tag form verbatim into the output.  The
code does the opposite: on a text holding a stray angle bracket the loop
finds the bracket, matches neither tag form, consumes nothing, and runs
forever, so for every tag name no amount of fuel completes the call. -/
theorem extract_ranges_stray_angle_diverges (tag : List Char) :
    divergesOn tag ['<'] := by
  intro fuel
  exact loop_stuck_bare_lt tag fuel [] [] []

/-- C4 counterexample: the text of a single open tag followed by a stray
angle bracket contains an unmatched open tag, yet extraction does not fail
(nor return): it diverges, exhausting every fuel amount. -/
theorem extract_ranges_unmatched_open_diverges :
    divergesOn "tag".toList "<tag><".toList := by
  intro fuel
  cases fuel with
  | zero => rfl
  | succ n => exact loop_stuck_bare_lt "tag".toList n [] [0] []

/-- C4 (amended): for tag text in which every angle bracket begins an open
or close tag form - rendered from a token list with bracket-free leading
and trailing text - a balanced token sequence makes extract_ranges return
a range list sorted by the pair of endpoints together with the cleaned
text, which equals the input with every tag form removed; an unbalanced
sequence (an unmatched open or close tag) makes extraction fail with the
panic of the source's assertions. -/
theorem extract_ranges_well_nested (tag lead : List Char)
    (items : List (TagTok × List Char)) (fuel : Nat)
    (htag : '/' ∉ tag) (hlead : '<' ∉ lead) (hitems : ∀ p ∈ items, '<' ∉ p.2)
    (hfuel : items.length + 1 ≤ fuel) :
    (balancedFromB 0 (items.map Prod.fst) = true →
      ∃ rs, extract_ranges fuel (lead ++ renderItems tag items) tag =
          ExtractResult.ok rs (lead ++ joinTexts items) ∧
        List.Sorted rangeLe rs) ∧
    (balancedFromB 0 (items.map Prod.fst) = false →
      extract_ranges fuel (lead ++ renderItems tag items) tag =
        ExtractResult.panic) := by
  have hsim := extractRangesLoop_sim tag htag items fuel lead [] [] [] hlead hitems hfuel
  constructor
  · intro hbal
    obtain ⟨rs, hrs⟩ := procItems_balanced items ([] ++ lead) [] [] hbal
    refine ⟨sortRanges rs, ?_, ?_⟩
    · rw [extract_ranges, hsim, hrs]
      simp
    · exact List.sorted_insertionSort rangeLe rs
  · intro hbal
    rw [extract_ranges, hsim]
    exact procItems_unbalanced items ([] ++ lead) [] [] hbal

/-- Witness for C4 at a concrete nested input: the rendered text is
a<foo>b<foo>c</foo>d</foo>e, and extraction also evaluates concretely. -/
theorem extract_ranges_well_nested_w :
    ('/' ∉ "foo".toList ∧ '<' ∉ "a".toList ∧
      (∀ p ∈ ([(TagTok.opn, "b".toList), (TagTok.opn, "c".toList),
          (TagTok.cls, "d".toList), (TagTok.cls, "e".toList)] :
          List (TagTok × List Char)), '<' ∉ p.2)) ∧
    ((balancedFromB 0 ([(TagTok.opn, "b".toList), (TagTok.opn, "c".toList),
          (TagTok.cls, "d".toList), (TagTok.cls, "e".toList)].map Prod.fst) = true →
      ∃ rs, extract_ranges 5 ("a".toList ++ renderItems "foo".toList
            [(TagTok.opn, "b".toList), (TagTok.opn, "c".toList),
              (TagTok.cls, "d".toList), (TagTok.cls, "e".toList)]) "foo".toList =
          ExtractResult.ok rs ("a".toList ++ joinTexts
            [(TagTok.opn, "b".toList), (TagTok.opn, "c".toList),
              (TagTok.cls, "d".toList), (TagTok.cls, "e".toList)]) ∧
        List.Sorted rangeLe rs) ∧
      (balancedFromB 0 ([(TagTok.opn, "b".toList), (TagTok.opn, "c".toList),
          (TagTok.cls, "d".toList), (TagTok.cls, "e".toList)].map Prod.fst) = false →
        extract_ranges 5 ("a".toList ++ renderItems "foo".toList
            [(TagTok.opn, "b".toList), (TagTok.opn, "c".toList),
              (TagTok.cls, "d".toList), (TagTok.cls, "e".toList)]) "foo".toList =
          ExtractResult.panic)) ∧
    extract_ranges 5 "a<foo>b<foo>c</foo>d</foo>e".toList "foo".toList =
      ExtractResult.ok [TextRange.from_to 1 4, TextRange.from_to 2 3] "abcde".toList :=
  ⟨⟨by decide, by decide, by decide⟩,
    extract_ranges_well_nested "foo".toList "a".toList
      [(TagTok.opn, "b".toList), (TagTok.opn, "c".toList),
        (TagTok.cls, "d".toList), (TagTok.cls, "e".toList)] 5
      (by decide) (by decide) (by decide) (by decide),
    by decide⟩

/-- C6: lines_match splits the expected string on the wildcard token and
requires each literal part in order in the remaining actual text, the
first at position zero unless the expected string starts with the token,
succeeding at the end only when the leftover actual text is empty or the
expected string ends with the token - as witnessed by the claim's five
example pairs. -/
theorem lines_match_examples :
    lines_match "a[..]b".toList "aXXXb".toList = true ∧
      lines_match "a[..]b".toList "ab".toList = true ∧
      lines_match "[..]".toList "anything".toList = true ∧
      lines_match "a[..]".toList "xa".toList = false ∧
      lines_match "b".toList "cb".toList = false :=
  ⟨rfl, rfl, rfl, rfl, rfl⟩

/-- C7: an expected side that is exactly the wildcard string matches every
actual value of any shape, whatever the (sufficient) fuel; in particular
it matches an object. -/
theorem find_mismatch_wildcard_any :
    (∀ (fuel : Nat) (v : Json),
        find_mismatch (fuel + 1) (Json.str wildcardVal) v = none) ∧
      find_mismatch 1 (Json.str wildcardVal) (Json.obj [(['x'], Json.num 1)]) = none := by
  constructor
  · intro fuel v
    cases v with
    | str s =>
      cases h : lines_match wildcardVal s <;> simp [find_mismatch, h]
    | null => simp [find_mismatch]
    | bool b => simp [find_mismatch]
    | num n => simp [find_mismatch]
    | arr xs => simp [find_mismatch]
    | obj fs => simp [find_mismatch]
  · rfl

/-- C5: find_mismatch on two arrays requires equal length, then performs
the unordered greedy multiset match of the source's retain loop; the two
example pairs of the claim evaluate accordingly, for every sufficient
fuel. -/
theorem find_mismatch_array_greedy :
    (∀ (fuel : Nat) (l r : List Json), l.length ≠ r.length →
        find_mismatch (fuel + 1) (Json.arr l) (Json.arr r) =
          some (Json.arr l, Json.arr r)) ∧
      (∀ fuel : Nat, find_mismatch (fuel + 2) (Json.arr [Json.num 1, Json.num 2])
          (Json.arr [Json.num 2, Json.num 1]) = none) ∧
      (∀ fuel : Nat, find_mismatch (fuel + 2) (Json.arr [Json.num 1, Json.num 2])
          (Json.arr [Json.num 1, Json.num 1]) = some (Json.num 2, Json.num 1)) := by
  refine ⟨?_, ?_, ?_⟩
  · intro fuel l r h
    simp [find_mismatch, h]
  · intro fuel
    simp [find_mismatch, fmGreedy, posMatch, lines_match]
  · intro fuel
    simp [find_mismatch, fmGreedy, posMatch, lines_match]

/-- Witness for C5's length requirement at a concrete unequal pair. -/
theorem find_mismatch_array_greedy_w :
    (([] : List Json).length ≠ ([Json.null] : List Json).length) ∧
      find_mismatch 1 (Json.arr []) (Json.arr [Json.null]) =
        some (Json.arr [], Json.arr [Json.null]) :=
  ⟨by decide, find_mismatch_array_greedy.1 0 [] [Json.null] (by decide)⟩

/-- C8: parse_fixture on the two-block example yields exactly the two
entries in source order, each body line margin-stripped and appended with
a trailing newline to the entry opened by the preceding meta line. -/
theorem parse_fixture_two_entries :
    parse_fixture "//- /foo.rs\nfn f() \x7b\x7d\n//- /bar.rs\nfn g() \x7b\x7d".toList =
      some [⟨"/foo.rs".toList, "fn f() \x7b\x7d\n".toList⟩,
        ⟨"/bar.rs".toList, "fn g() \x7b\x7d\n".toList⟩] := rfl

/-- The margin-stripping pass fails exactly when some line fails its
margin check. -/
theorem stripLines_eq_none_iff (margin : Nat) :
    ∀ ls : List (List Char),
      stripLines margin ls = none ↔ ∃ l ∈ ls, badLine margin l = true := by
  intro ls
  induction ls with
  | nil => simp [stripLines]
  | cons l ls ih =>
    by_cases hm : margin ≤ l.length
    · by_cases hw : (l.take margin).all Char.isWhitespace = true
      · have hbadl : badLine margin l = false := by simp [badLine, hm, hw]
        rw [stripLines, if_pos hm, if_pos hw, Option.map_eq_none', ih]
        constructor
        · rintro ⟨x, hx, hbx⟩
          exact ⟨x, List.mem_cons_of_mem _ hx, hbx⟩
        · rintro ⟨x, hx, hbx⟩
          rcases List.mem_cons.mp hx with hhead | htail
          · rw [hhead, hbadl] at hbx
            cases hbx
          · exact ⟨x, htail, hbx⟩
      · have hw' : (l.take margin).all Char.isWhitespace = false := by
          cases h : (l.take margin).all Char.isWhitespace with
          | false => rfl
          | true => exact absurd h hw
        have hbadl : badLine margin l = true := by simp [badLine, hm, hw']
        rw [stripLines, if_pos hm, if_neg hw]
        constructor
        · intro _
          exact ⟨l, List.mem_cons_self _ _, hbadl⟩
        · intro _
          rfl
    · by_cases hw : l.all Char.isWhitespace = true
      · have hbadl : badLine margin l = false := by simp [badLine, hm, hw]
        rw [stripLines, if_neg hm, if_pos hw, ih]
        constructor
        · rintro ⟨x, hx, hbx⟩
          exact ⟨x, List.mem_cons_of_mem _ hx, hbx⟩
        · rintro ⟨x, hx, hbx⟩
          rcases List.mem_cons.mp hx with hhead | htail
          · rw [hhead, hbadl] at hbx
            cases hbx
          · exact ⟨x, htail, hbx⟩
      · have hw' : l.all Char.isWhitespace = false := by
          cases h : l.all Char.isWhitespace with
          | false => rfl
          | true => exact absurd h hw
        have hbadl : badLine margin l = true := by simp [badLine, hm, hw']
        rw [stripLines, if_neg hm, if_neg hw]
        constructor
        · intro _
          exact ⟨l, List.mem_cons_self _ _, hbadl⟩
        · intro _
          rfl

/-- C9: parse_fixture fails exactly when the input has no meta line at
all, or - with the margin taken from the first meta line - some line at
least margin long has a margin prefix that is not all whitespace, or some
shorter line is not all whitespace; on every other input it returns
normally. -/
theorem parse_fixture_fails_iff (f : List Char) :
    parse_fixture f = none ↔
      ((∀ l ∈ rustLines f, isMetaLine l = false) ∨
        ∃ m, marginOf (rustLines f) = some m ∧
          ∃ l ∈ rustLines f, badLine m l = true) := by
  unfold parse_fixture
  split
  next hm =>
    constructor
    · intro _
      left
      unfold marginOf at hm
      cases hf : (rustLines f).find? isMetaLine with
      | none =>
        intro l hl
        have hnot := List.find?_eq_none.mp hf l hl
        cases h : isMetaLine l with
        | false => rfl
        | true => exact absurd h hnot
      | some l0 =>
        rw [hf] at hm
        cases hm
    · intro _
      rfl
  next m hm =>
    have hfind : ∃ l0, (rustLines f).find? isMetaLine = some l0 ∧
        isMetaLine l0 = true ∧ l0 ∈ rustLines f := by
      unfold marginOf at hm
      cases hf : (rustLines f).find? isMetaLine with
      | none =>
        rw [hf] at hm
        cases hm
      | some l0 =>
        exact ⟨l0, rfl, List.find?_some hf, List.mem_of_find?_eq_some hf⟩
    obtain ⟨l0, hf0, hmeta0, hmem0⟩ := hfind
    split
    next hs =>
      constructor
      · intro _
        right
        exact ⟨m, hm, (stripLines_eq_none_iff m (rustLines f)).mp hs⟩
      · intro _
        rfl
    next ls hs =>
      constructor
      · intro h
        simp at h
      · rintro (hall | ⟨m', hm', l, hl, hbad⟩)
        · rw [hall l0 hmem0] at hmeta0
          cases hmeta0
        · exfalso
          have hmm : m' = m := by
            rw [hm] at hm'
            injection hm' with h
            exact h.symm
          rw [hmm] at hbad
          have hnone := (stripLines_eq_none_iff m (rustLines f)).mpr ⟨l, hl, hbad⟩
          rw [hs] at hnone
          cases hnone
